import Mathlib

/-!
Verification of `input_latency.cpp`: a single-loop tool that measures the
latency between a kernel input-event timestamp and the moment user space
processes the event, and reports percentile statistics.

The embedding below translates the source functions into Lean:
`double` values are modelled as `ℚ` (all arithmetic in the source on the
measured path is exact at this granularity), `uint64_t` nanosecond counts
as `ℕ`, and the C `int` limit as `ℤ`.  The monotonic-clock reading taken
while a record is processed is carried alongside the record (`now_ns`),
since the clock is ambient state read exactly once per measurable record.
-/

namespace InputLatency

/-- Event type codes from `<linux/input-event-codes.h>` used by the source. -/
def EV_SYN : ℕ := 0

def EV_KEY : ℕ := 1

def EV_REL : ℕ := 2

def EV_ABS : ℕ := 3

def EV_MSC : ℕ := 4

/-- One `struct input_event` as the loop sees it: the record fields plus the
`CLOCK_MONOTONIC` reading (`ts_to_ns(now_ts)`) captured when the record is
processed.  `time_ns` is `tv_to_ns(ev.time)`. -/
structure InputEvent where
  type : ℕ
  code : ℕ
  value : ℤ
  time_ns : ℕ
  now_ns : ℕ
  deriving DecidableEq

/-- The interpolation branch of `percentile`:
`size_t i = (size_t)idx; double frac = idx - i;
 if (i + 1 < v.size()) return v[i]*(1.0-frac) + v[i+1]*frac; return v[i];`
(the `(size_t)` cast truncates toward zero; `idx` is nonnegative whenever
this branch runs, so it is the floor). -/
def interpAt (v : List ℚ) (idx : ℚ) : ℚ :=
  let i : ℕ := (⌊idx⌋).toNat
  let frac : ℚ := idx - (i : ℚ)
  if i + 1 < v.length then v.getD i 0 * (1 - frac) + v.getD (i + 1) 0 * frac
  else v.getD i 0

/-- `static double percentile(std::vector<double>& v, double p)` from the
source, line for line: empty → 0.0; `p <= 0` → `v.front()`; `p >= 100` →
`v.back()`; otherwise interpolate at `idx = (p/100)*(v.size()-1)`. -/
def percentile (v : List ℚ) (p : ℚ) : ℚ :=
  if v = [] then 0
  else if p ≤ 0 then v.headI
  else if 100 ≤ p then v.getLastD 0
  else interpAt v ((p / 100) * ((v.length - 1 : ℕ) : ℚ))

/-- The derived scalars printed by a stats report. -/
structure Stats where
  count : ℕ
  avg : ℚ
  p50 : ℚ
  p95 : ℚ
  p99 : ℚ
  deriving DecidableEq

/-- The `print_stats` lambda.  It returns early when the accumulator is
empty; otherwise it copies the accumulator into `v`, sorts the copy,
averages it and takes percentiles.  The second component is what the
captured accumulator `latencies_us` holds after the call returns: the
source sorts the copy `v`, not the accumulator, so it is returned as is. -/
def print_stats (latencies_us : List ℚ) : Option Stats × List ℚ :=
  if latencies_us = [] then (none, latencies_us)
  else
    let v := latencies_us.insertionSort (· ≤ ·)
    let avg := v.sum / (v.length : ℚ)
    (some ⟨v.length, avg, percentile v 50, percentile v 95, percentile v 99⟩,
     latencies_us)

/-- The mutable state of the main loop: the sample accumulator and the two
counters declared just before the poll loop. -/
structure LoopSt where
  latencies_us : List ℚ
  total_events : ℕ
  measured_events : ℕ
  deriving DecidableEq

/-- The state at the top of `main`'s poll loop. -/
def initSt : LoopSt := ⟨[], 0, 0⟩

/-- Console output events, abstracted from the exact formatting. -/
inductive Output where
  | eventLine (typ : ℕ) (code : ℕ) (value : ℤ) (latency_us : ℚ)
  | rolling (st : Stats)
  | idle
  | final (st : Stats)
  | noData
  | totals (total measured : ℕ)
  deriving DecidableEq

/-- `bool measure = (ev.type == EV_KEY || ev.type == EV_ABS || ev.type == EV_REL || ev.type == EV_MSC);` -/
def measure (t : ℕ) : Bool :=
  t == EV_KEY || t == EV_ABS || t == EV_REL || t == EV_MSC

/-- The latency sample appended for a kept record:
`double delta_us = (now_ns - evt_ns) / 1000.0` (only evaluated under the
guard `now_ns >= evt_ns`, so the `uint64_t` subtraction cannot wrap). -/
def sampleUS (e : InputEvent) : ℚ :=
  ((e.now_ns - e.time_ns : ℕ) : ℚ) / 1000

/-- A record both classified for measurement and passing the
clock-mismatch guard `now_ns >= evt_ns`. -/
def keepEv (e : InputEvent) : Bool :=
  measure e.type && (e.time_ns ≤ e.now_ns)

/-- The body of the `for (size_t i = 0; i < cnt; ++i)` loop for one record:
count it, classify it, and when measurable and the delta is nonnegative,
append the sample, bump `measured_events`, and (unless `--quiet`) print the
per-event line and, every 50 measured events, a rolling summary. -/
def processEvent (quiet : Bool) (s : LoopSt) (e : InputEvent) : LoopSt × List Output :=
  let s1 : LoopSt := { s with total_events := s.total_events + 1 }
  if measure e.type then
    if e.time_ns ≤ e.now_ns then
      let delta_us := sampleUS e
      let s2 : LoopSt := { s1 with
        latencies_us := s1.latencies_us ++ [delta_us],
        measured_events := s1.measured_events + 1 }
      let perEvent : List Output :=
        if quiet then [] else [Output.eventLine e.type e.code e.value delta_us]
      let roll : List Output :=
        if quiet = false ∧ s2.measured_events % 50 = 0 then
          match (print_stats s2.latencies_us).1 with
          | some st => [Output.rolling st]
          | none => []
        else []
      (s2, perEvent ++ roll)
    else (s1, [])
  else (s1, [])

/-- Processing the `cnt` records of one successful `read`, in order. -/
def processBatch (quiet : Bool) (s : LoopSt) : List InputEvent → LoopSt × List Output
  | [] => (s, [])
  | e :: rest =>
    let r := processEvent quiet s e
    let r' := processBatch quiet r.1 rest
    (r'.1, r.2 ++ r'.2)

/-- What one iteration of the poll loop observes after the loop condition:
the outcome of `poll` and, when readable, of `read`. -/
inductive PollStep where
  | timeout
  | pollEINTR
  | pollFatal
  | noPollin
  | readAgain
  | readFatal
  | batch (evs : List InputEvent)
  deriving DecidableEq

/-- The poll loop
`while (!g_stop && (limit == 0 || (int)latencies_us.size() < limit))`.
Each list entry is the `g_stop` value observed at the top of the iteration
together with what `poll`/`read` yield in that iteration; an exhausted list
means no further activity is in scope.  Fatal `poll`/`read` errors `break`;
timeouts print an idle notice when not quiet; `EINTR`/`EAGAIN` retry. -/
def loopRun (limit : ℤ) (quiet : Bool) (s : LoopSt) :
    List (Bool × PollStep) → LoopSt × List Output
  | [] => (s, [])
  | (stop, step) :: rest =>
    if stop = true ∨ ¬(limit = 0 ∨ (s.latencies_us.length : ℤ) < limit) then
      (s, [])
    else
      match step with
      | PollStep.timeout =>
        let r := loopRun limit quiet s rest
        (r.1, (if quiet then [] else [Output.idle]) ++ r.2)
      | PollStep.pollEINTR => loopRun limit quiet s rest
      | PollStep.pollFatal => (s, [])
      | PollStep.noPollin => loopRun limit quiet s rest
      | PollStep.readAgain => loopRun limit quiet s rest
      | PollStep.readFatal => (s, [])
      | PollStep.batch evs =>
        let r := processBatch quiet s evs
        let r' := loopRun limit quiet r.1 rest
        (r'.1, r.2 ++ r'.2)

/-- The code after the loop: `print_stats(true)` when samples exist,
otherwise the "No measurable input events captured" notice, then the
total/measured counts. -/
def finalOutput (s : LoopSt) : List Output :=
  (match (print_stats s.latencies_us).1 with
   | some st => [Output.final st]
   | none => [Output.noData]) ++
  [Output.totals s.total_events s.measured_events]

/-- A full run of the main loop from the initial state followed by the
shutdown report. -/
def programRun (limit : ℤ) (quiet : Bool) (iters : List (Bool × PollStep)) :
    LoopSt × List Output :=
  let r := loopRun limit quiet initSt iters
  (r.1, r.2 ++ finalOutput r.1)

/-- Recognizer for final summary outputs. -/
def isFinalOut : Output → Bool
  | Output.final _ => true
  | _ => false

/-- The value of the longest digit prefix, or `none` when the first
character is not a digit (`std::stoi` then throws `invalid_argument`). -/
def parseNatDigits (cs : List Char) : Option ℕ :=
  let ds := cs.takeWhile Char.isDigit
  if ds.isEmpty then none
  else some (ds.foldl (fun a c => a * 10 + (c.toNat - 48)) 0)

/-- Model of `std::stoi`: skip leading whitespace, accept an optional sign
and a run of decimal digits (trailing characters ignored).  `none` models
a thrown exception: `invalid_argument` when no digits are found, or
`out_of_range` when the value does not fit in a 32-bit `int`. -/
def stoiQ (s : String) : Option ℤ :=
  let cs := s.toList.dropWhile Char.isWhitespace
  match cs with
  | '-' :: rest =>
    (parseNatDigits rest).bind fun n =>
      if (n : ℤ) ≤ 2 ^ 31 then some (-(n : ℤ)) else none
  | '+' :: rest =>
    (parseNatDigits rest).bind fun n =>
      if (n : ℤ) < 2 ^ 31 then some (n : ℤ) else none
  | _ =>
    (parseNatDigits cs).bind fun n =>
      if (n : ℤ) < 2 ^ 31 then some (n : ℤ) else none

/-- How argument handling in `main` can end. -/
inductive ParseResult where
  | usage
  | unknownArg (a : String)
  | stoiThrow (a : String)
  | ok (limit : ℤ) (quiet : Bool)
  deriving DecidableEq

/-- The `for (int i = 2; i < argc; ++i)` option loop.  `--limit` consumes
the following argument when one exists (`i + 1 < argc`); a trailing
`--limit` with no value falls through to the unknown-argument branch. -/
def parseOpts : List String → ℤ → Bool → ParseResult
  | [], limitAcc, quiet => ParseResult.ok limitAcc quiet
  | [a], limitAcc, _quiet =>
    if a = "--quiet" then ParseResult.ok limitAcc true
    else ParseResult.unknownArg a
  | a :: v :: rest, limitAcc, quiet =>
    if a = "--limit" then
      match stoiQ v with
      | some n => parseOpts rest n quiet
      | none => ParseResult.stoiThrow v
    else if a = "--quiet" then parseOpts (v :: rest) limitAcc true
    else ParseResult.unknownArg a

/-- Argument handling of `main` applied to `argv[1..]`: an empty list is
`argc < 2` (usage message, exit 1); otherwise `argv[1]` is the device path
and the remaining arguments go through the option loop, starting from
`limit = 0` (unlimited) and `quiet = false`. -/
def parseArgs : List String → ParseResult
  | [] => ParseResult.usage
  | _dev :: rest => parseOpts rest 0 false

/-- How the process terminates: `exit code` for a plain `return code`, and
`abort` for the uncaught `std::stoi` exception (abnormal termination). -/
inductive ExitResult where
  | exit (code : ℕ)
  | abort
  deriving DecidableEq

/-- End-to-end exit behavior of `main`: usage and unknown-argument errors
return 1; a `--limit` value `std::stoi` rejects terminates abnormally; a
failed `open` returns 1; once the device is open the poll loop runs and
`main` falls through to `return 0` on every loop exit path. -/
def programExit (args : List String) (openOk : Bool)
    (iters : List (Bool × PollStep)) : ExitResult :=
  match parseArgs args with
  | ParseResult.usage => ExitResult.exit 1
  | ParseResult.unknownArg _ => ExitResult.exit 1
  | ParseResult.stoiThrow _ => ExitResult.abort
  | ParseResult.ok limit quiet =>
    if openOk then
      (fun _ => ExitResult.exit 0) (programRun limit quiet iters)
    else ExitResult.exit 1

/-- `percentile` interpolates the spec's formula as written: index =
`(p/100) * (n-1)` over the sorted list, `i = floor(index)`,
`frac = index - i`, `sorted[i]*(1-frac) + sorted[i+1]*frac`, clamped to
the last element when `i+1` is out of range.  This definition follows the
spec text; the theorem for C2 compares it with `percentile`, which follows
the source. -/
def specInterp (sorted : List ℚ) (p : ℚ) : ℚ :=
  let index : ℚ := (p / 100) * ((sorted.length : ℚ) - 1)
  let i : ℤ := ⌊index⌋
  let frac : ℚ := index - (i : ℚ)
  if i + 1 ≤ (sorted.length : ℤ) - 1 then
    sorted.getD i.toNat 0 * (1 - frac) + sorted.getD (i.toNat + 1) 0 * frac
  else sorted.getD i.toNat 0

theorem getD_eq_getElem (v : List ℚ) {n : ℕ} (h : n < v.length) :
    v.getD n 0 = v[n] := by
  rw [List.getD_eq_getElem?_getD, List.getElem?_eq_getElem h]
  rfl

theorem getD_mem (v : List ℚ) {n : ℕ} (h : n < v.length) : v.getD n 0 ∈ v := by
  rw [getD_eq_getElem v h]
  exact List.getElem_mem h

theorem sorted_getD_mono (v : List ℚ) (hs : v.Sorted (· ≤ ·)) {a b : ℕ}
    (hab : a ≤ b) (hb : b < v.length) : v.getD a 0 ≤ v.getD b 0 := by
  have ha : a < v.length := lt_of_le_of_lt hab hb
  rw [getD_eq_getElem v ha, getD_eq_getElem v hb]
  have := hs.rel_get_of_le (a := ⟨a, ha⟩) (b := ⟨b, hb⟩) hab
  simpa using this

theorem headI_eq_getD (v : List ℚ) (hv : v ≠ []) : v.headI = v.getD 0 0 := by
  cases v with
  | nil => exact absurd rfl hv
  | cons a t => rfl

theorem getLastD_eq_getD (v : List ℚ) : v.getLastD 0 = v.getD (v.length - 1) 0 := by
  rw [List.getLastD_eq_getLast?, List.getLast?_eq_getElem?, List.getD_eq_getElem?_getD]

theorem floor_toNat_cast (idx : ℚ) (h0 : 0 ≤ idx) :
    ((⌊idx⌋.toNat : ℕ) : ℚ) = ((⌊idx⌋ : ℤ) : ℚ) := by
  have h1 : (0 : ℤ) ≤ ⌊idx⌋ := Int.floor_nonneg.2 h0
  exact_mod_cast congrArg (fun z : ℤ => (z : ℚ)) (Int.toNat_of_nonneg h1)

theorem floor_toNat_le (idx : ℚ) (h0 : 0 ≤ idx) : ((⌊idx⌋.toNat : ℕ) : ℚ) ≤ idx := by
  rw [floor_toNat_cast idx h0]
  exact Int.floor_le idx

theorem lt_floor_toNat_add_one (idx : ℚ) (h0 : 0 ≤ idx) :
    idx < ((⌊idx⌋.toNat : ℕ) : ℚ) + 1 := by
  rw [floor_toNat_cast idx h0]
  exact Int.lt_floor_add_one idx

theorem floor_toNat_le_of_le_nat (idx : ℚ) (m : ℕ) (hub : idx ≤ (m : ℚ)) :
    ⌊idx⌋.toNat ≤ m := by
  have h1 : ⌊idx⌋ ≤ (m : ℤ) := by
    have := Int.floor_le_floor hub
    rwa [Int.floor_natCast] at this
  omega

/-- The interpolated value is at least the order statistic at the floor
index. -/
theorem getD_floor_le_interpAt (v : List ℚ) (hs : v.Sorted (· ≤ ·)) {idx : ℚ}
    (h0 : 0 ≤ idx) : v.getD ⌊idx⌋.toNat 0 ≤ interpAt v idx := by
  unfold interpAt
  by_cases hi : ⌊idx⌋.toNat + 1 < v.length
  · simp only [hi, if_true]
    have hfrac : 0 ≤ idx - ((⌊idx⌋.toNat : ℕ) : ℚ) :=
      sub_nonneg.2 (floor_toNat_le idx h0)
    have hle : v.getD ⌊idx⌋.toNat 0 ≤ v.getD (⌊idx⌋.toNat + 1) 0 :=
      sorted_getD_mono v hs (Nat.le_succ _) hi
    nlinarith [mul_nonneg hfrac (sub_nonneg.2 hle)]
  · simp only [hi, if_false]
    exact le_refl _

/-- The interpolated value is at most the order statistic one past the
floor index, when that index is in range. -/
theorem interpAt_le_getD_succ (v : List ℚ) (hs : v.Sorted (· ≤ ·)) {idx : ℚ}
    (h0 : 0 ≤ idx) (hi : ⌊idx⌋.toNat + 1 < v.length) :
    interpAt v idx ≤ v.getD (⌊idx⌋.toNat + 1) 0 := by
  unfold interpAt
  simp only [hi, if_true]
  have hfrac : idx - ((⌊idx⌋.toNat : ℕ) : ℚ) < 1 := by
    have := lt_floor_toNat_add_one idx h0
    linarith
  have hle : v.getD ⌊idx⌋.toNat 0 ≤ v.getD (⌊idx⌋.toNat + 1) 0 :=
    sorted_getD_mono v hs (Nat.le_succ _) hi
  nlinarith [mul_nonneg (sub_nonneg.2 hfrac.le) (sub_nonneg.2 hle)]

/-- The interpolated value never exceeds the last order statistic. -/
theorem interpAt_le_last (v : List ℚ) (hs : v.Sorted (· ≤ ·)) {idx : ℚ}
    (h0 : 0 ≤ idx) (hv : v ≠ [])
    (hub : idx ≤ ((v.length - 1 : ℕ) : ℚ)) :
    interpAt v idx ≤ v.getD (v.length - 1) 0 := by
  have hlen : 1 ≤ v.length := List.length_pos.2 hv
  have hile : ⌊idx⌋.toNat ≤ v.length - 1 := floor_toNat_le_of_le_nat idx _ hub
  by_cases hi : ⌊idx⌋.toNat + 1 < v.length
  · calc interpAt v idx ≤ v.getD (⌊idx⌋.toNat + 1) 0 :=
          interpAt_le_getD_succ v hs h0 hi
      _ ≤ v.getD (v.length - 1) 0 :=
          sorted_getD_mono v hs (by omega) (by omega)
  · unfold interpAt
    simp only [hi, if_false]
    exact sorted_getD_mono v hs hile (by omega)

/-- The first order statistic never exceeds the interpolated value. -/
theorem first_le_interpAt (v : List ℚ) (hs : v.Sorted (· ≤ ·)) {idx : ℚ}
    (h0 : 0 ≤ idx) (hv : v ≠ [])
    (hub : idx ≤ ((v.length - 1 : ℕ) : ℚ)) :
    v.getD 0 0 ≤ interpAt v idx := by
  have hlen : 1 ≤ v.length := List.length_pos.2 hv
  have hile : ⌊idx⌋.toNat ≤ v.length - 1 := floor_toNat_le_of_le_nat idx _ hub
  calc v.getD 0 0 ≤ v.getD ⌊idx⌋.toNat 0 :=
        sorted_getD_mono v hs (Nat.zero_le _) (by omega)
    _ ≤ interpAt v idx := getD_floor_le_interpAt v hs h0

/-- Monotonicity of the interpolation in the index. -/
theorem interpAt_mono (v : List ℚ) (hs : v.Sorted (· ≤ ·)) {x y : ℚ}
    (hx : 0 ≤ x) (hxy : x ≤ y) (hv : v ≠ [])
    (hy : y ≤ ((v.length - 1 : ℕ) : ℚ)) :
    interpAt v x ≤ interpAt v y := by
  have hy0 : 0 ≤ y := le_trans hx hxy
  have hlen : 1 ≤ v.length := List.length_pos.2 hv
  have hij : ⌊x⌋.toNat ≤ ⌊y⌋.toNat := by
    have := Int.floor_le_floor hxy
    omega
  have hjle : ⌊y⌋.toNat ≤ v.length - 1 := floor_toNat_le_of_le_nat y _ hy
  rcases Nat.lt_or_ge ⌊x⌋.toNat ⌊y⌋.toNat with hlt | hge
  · -- the two indices differ: chain through the order statistics between them
    have hi1 : ⌊x⌋.toNat + 1 < v.length := by omega
    calc interpAt v x ≤ v.getD (⌊x⌋.toNat + 1) 0 :=
          interpAt_le_getD_succ v hs hx hi1
      _ ≤ v.getD ⌊y⌋.toNat 0 := sorted_getD_mono v hs (by omega) (by omega)
      _ ≤ interpAt v y := getD_floor_le_interpAt v hs hy0
  · -- same floor index: linear interpolation with a larger fraction
    have heq : ⌊x⌋.toNat = ⌊y⌋.toNat := le_antisymm hij hge
    unfold interpAt
    rw [heq]
    by_cases hi : ⌊y⌋.toNat + 1 < v.length
    · simp only [hi, if_true]
      have hle : v.getD ⌊y⌋.toNat 0 ≤ v.getD (⌊y⌋.toNat + 1) 0 :=
        sorted_getD_mono v hs (Nat.le_succ _) hi
      nlinarith [mul_nonneg (sub_nonneg.2 hxy) (sub_nonneg.2 hle)]
    · simp only [hi, if_false]
      exact le_refl _

theorem percentile_of_nonpos (v : List ℚ) (hv : v ≠ []) {p : ℚ} (hp : p ≤ 0) :
    percentile v p = v.headI := by
  unfold percentile
  rw [if_neg hv, if_pos hp]

theorem percentile_of_ge_100 (v : List ℚ) (hv : v ≠ []) {p : ℚ} (hp : 100 ≤ p) :
    percentile v p = v.getLastD 0 := by
  unfold percentile
  rw [if_neg hv, if_neg (not_le.2 (by linarith : (0:ℚ) < p)), if_pos hp]

theorem percentile_of_between (v : List ℚ) (hv : v ≠ []) {p : ℚ}
    (hp0 : 0 < p) (hp1 : p < 100) :
    percentile v p = interpAt v ((p / 100) * ((v.length - 1 : ℕ) : ℚ)) := by
  unfold percentile
  rw [if_neg hv, if_neg (not_le.2 hp0), if_neg (not_le.2 hp1)]

theorem idx_nonneg (v : List ℚ) {p : ℚ} (hp0 : 0 ≤ p) :
    0 ≤ (p / 100) * ((v.length - 1 : ℕ) : ℚ) :=
  mul_nonneg (div_nonneg hp0 (by norm_num)) (Nat.cast_nonneg _)

theorem idx_le_last (v : List ℚ) {p : ℚ} (_hp0 : 0 ≤ p) (hp1 : p ≤ 100) :
    (p / 100) * ((v.length - 1 : ℕ) : ℚ) ≤ ((v.length - 1 : ℕ) : ℚ) := by
  have h1 : p / 100 ≤ 1 := by
    rw [div_le_one (by norm_num : (0:ℚ) < 100)]
    exact hp1
  calc (p / 100) * ((v.length - 1 : ℕ) : ℚ)
      ≤ 1 * ((v.length - 1 : ℕ) : ℚ) :=
        mul_le_mul_of_nonneg_right h1 (Nat.cast_nonneg _)
    _ = ((v.length - 1 : ℕ) : ℚ) := one_mul _

/-- C6: over any fixed non-empty ascending-sorted sample list, `percentile`
is monotone in the percentile argument: for `0 ≤ p1 < p2 ≤ 100`,
`percentile v p1 ≤ percentile v p2`. -/
theorem C6_percentile_monotone (v : List ℚ) (hv : v ≠ [])
    (hs : v.Sorted (· ≤ ·)) {p1 p2 : ℚ} (h0 : 0 ≤ p1) (h12 : p1 < p2)
    (h100 : p2 ≤ 100) : percentile v p1 ≤ percentile v p2 := by
  have hlen : 1 ≤ v.length := List.length_pos.2 hv
  by_cases hp1 : p1 ≤ 0
  · rw [percentile_of_nonpos v hv hp1, headI_eq_getD v hv]
    have hp2pos : 0 < p2 := by linarith
    by_cases hp2 : 100 ≤ p2
    · rw [percentile_of_ge_100 v hv hp2, getLastD_eq_getD]
      exact sorted_getD_mono v hs (Nat.zero_le _) (by omega)
    · push_neg at hp2
      rw [percentile_of_between v hv hp2pos hp2]
      exact first_le_interpAt v hs (idx_nonneg v hp2pos.le) hv
        (idx_le_last v hp2pos.le hp2.le)
  · push_neg at hp1
    by_cases hp2 : 100 ≤ p2
    · rw [percentile_of_ge_100 v hv hp2, getLastD_eq_getD]
      have hp1lt : p1 < 100 := by linarith
      rw [percentile_of_between v hv hp1 hp1lt]
      exact interpAt_le_last v hs (idx_nonneg v hp1.le) hv
        (idx_le_last v hp1.le hp1lt.le)
    · push_neg at hp2
      rw [percentile_of_between v hv hp1 (by linarith),
        percentile_of_between v hv (by linarith) hp2]
      refine interpAt_mono v hs (idx_nonneg v hp1.le) ?_ hv
        (idx_le_last v (by linarith) hp2.le)
      exact mul_le_mul_of_nonneg_right
        (by linarith [(div_le_div_iff_of_pos_right (c := (100:ℚ)) (by norm_num)).2 h12.le] :
          p1 / 100 ≤ p2 / 100)
        (Nat.cast_nonneg _)

/-- Witness for C6 at `v = [100, 200, 300, 400, 500]`, `p1 = 0`, `p2 = 50`. -/
theorem C6_percentile_monotone_witness :
    ([100, 200, 300, 400, 500] : List ℚ) ≠ [] ∧
    ([100, 200, 300, 400, 500] : List ℚ).Sorted (· ≤ ·) ∧
    (0 : ℚ) ≤ 0 ∧ (0 : ℚ) < 50 ∧ (50 : ℚ) ≤ 100 ∧
    percentile [100, 200, 300, 400, 500] 0 ≤ percentile [100, 200, 300, 400, 500] 50 :=
  ⟨by decide, by decide, by decide, by decide, by decide,
   C6_percentile_monotone [100, 200, 300, 400, 500] (by decide) (by decide)
     (by decide) (by decide) (by decide)⟩

theorem percentile_eq_specInterp (v : List ℚ) (hv : v ≠ []) {p : ℚ}
    (hp0 : 0 < p) (hp1 : p < 100) : percentile v p = specInterp v p := by
  have hlen : 1 ≤ v.length := List.length_pos.2 hv
  rw [percentile_of_between v hv hp0 hp1]
  have hcast : ((v.length - 1 : ℕ) : ℚ) = (v.length : ℚ) - 1 := by
    push_cast [Nat.cast_sub hlen]
    ring
  simp only [interpAt, specInterp]
  rw [hcast]
  set idx := (p / 100) * ((v.length : ℚ) - 1) with hidx
  have hidx0 : 0 ≤ idx := by
    rw [hidx, ← hcast]
    exact idx_nonneg v hp0.le
  have hfl : ((⌊idx⌋.toNat : ℕ) : ℚ) = ((⌊idx⌋ : ℤ) : ℚ) := floor_toNat_cast idx hidx0
  have hflnn : (0 : ℤ) ≤ ⌊idx⌋ := Int.floor_nonneg.2 hidx0
  have hcond : (⌊idx⌋.toNat + 1 < v.length) ↔ (⌊idx⌋ + 1 ≤ (v.length : ℤ) - 1) := by
    omega
  by_cases hc : ⌊idx⌋.toNat + 1 < v.length
  · rw [if_pos hc, if_pos (hcond.1 hc), hfl]
  · rw [if_neg hc, if_neg (fun h => hc (hcond.2 h))]

/-- C2: over any non-empty ascending-sorted list, `percentile` returns the
minimum at `p = 0`, the maximum at `p = 100`, and for `0 < p < 100` the
spec's linear-interpolation formula (`specInterp`); on the sample list
`[100, 200, 300, 400, 500]` it yields `p0 = 100`, `p50 = 300`,
`p100 = 500`. -/
theorem C2_percentile_spec :
    (∀ v : List ℚ, v ≠ [] → v.Sorted (· ≤ ·) →
      (percentile v 0 ∈ v ∧ ∀ x ∈ v, percentile v 0 ≤ x) ∧
      (percentile v 100 ∈ v ∧ ∀ x ∈ v, x ≤ percentile v 100) ∧
      (∀ p : ℚ, 0 < p → p < 100 → percentile v p = specInterp v p)) ∧
    percentile [100, 200, 300, 400, 500] 0 = 100 ∧
    percentile [100, 200, 300, 400, 500] 50 = 300 ∧
    percentile [100, 200, 300, 400, 500] 100 = 500 := by
  refine ⟨fun v hv hs => ⟨?_, ?_, fun p hp0 hp1 => percentile_eq_specInterp v hv hp0 hp1⟩, ?_, ?_, ?_⟩
  · have hlen : 0 < v.length := List.length_pos.2 hv
    rw [percentile_of_nonpos v hv le_rfl, headI_eq_getD v hv]
    refine ⟨getD_mem v hlen, fun x hx => ?_⟩
    rcases List.mem_iff_getElem.1 hx with ⟨k, hk, rfl⟩
    rw [← getD_eq_getElem v hk]
    exact sorted_getD_mono v hs (Nat.zero_le _) hk
  · have hlen : 0 < v.length := List.length_pos.2 hv
    rw [percentile_of_ge_100 v hv le_rfl, getLastD_eq_getD]
    refine ⟨getD_mem v (by omega), fun x hx => ?_⟩
    rcases List.mem_iff_getElem.1 hx with ⟨k, hk, rfl⟩
    rw [← getD_eq_getElem v hk]
    exact sorted_getD_mono v hs (by omega) (by omega)
  · rw [percentile_of_nonpos _ (by simp) le_rfl]
    rfl
  · rw [percentile_of_between (p := 50) _ (by simp) (by norm_num) (by norm_num)]
    norm_num [interpAt, show Int.toNat 2 = 2 from rfl, List.getD]
  · rw [percentile_of_ge_100 _ (by simp) le_rfl]
    rfl

/-- Witness for C2 at `v = [100, 200, 300, 400, 500]` and `p = 50`. -/
theorem C2_percentile_spec_witness :
    ([100, 200, 300, 400, 500] : List ℚ) ≠ [] ∧
    ([100, 200, 300, 400, 500] : List ℚ).Sorted (· ≤ ·) ∧
    (0 : ℚ) < 50 ∧ (50 : ℚ) < 100 ∧
    (percentile [100, 200, 300, 400, 500] 0 ∈ ([100, 200, 300, 400, 500] : List ℚ) ∧
      ∀ x ∈ ([100, 200, 300, 400, 500] : List ℚ), percentile [100, 200, 300, 400, 500] 0 ≤ x) ∧
    percentile [100, 200, 300, 400, 500] 50 = specInterp [100, 200, 300, 400, 500] 50 :=
  ⟨by decide, by decide, by decide, by decide,
   (C2_percentile_spec.1 [100, 200, 300, 400, 500] (by decide) (by decide)).1,
   (C2_percentile_spec.1 [100, 200, 300, 400, 500] (by decide) (by decide)).2.2
     50 (by decide) (by decide)⟩

theorem processEvent_fst (quiet : Bool) (s : LoopSt) (e : InputEvent) :
    (processEvent quiet s e).1 =
      if keepEv e then
        ⟨s.latencies_us ++ [sampleUS e], s.total_events + 1, s.measured_events + 1⟩
      else ⟨s.latencies_us, s.total_events + 1, s.measured_events⟩ := by
  by_cases hm : measure e.type
  · by_cases ht : e.time_ns ≤ e.now_ns
    · simp [processEvent, keepEv, hm, ht]
    · simp [processEvent, keepEv, hm, ht]
  · simp [processEvent, keepEv, hm]

theorem processEvent_discard_out (quiet : Bool) (s : LoopSt) (e : InputEvent)
    (h : keepEv e = false) : (processEvent quiet s e).2 = [] := by
  by_cases hm : measure e.type
  · have ht : ¬ e.time_ns ≤ e.now_ns := by
      intro ht
      simp [keepEv, hm, ht] at h
    simp [processEvent, hm, ht]
  · simp [processEvent, hm]

theorem processBatch_fst (quiet : Bool) (evs : List InputEvent) (s : LoopSt) :
    (processBatch quiet s evs).1 =
      ⟨s.latencies_us ++ (evs.filter keepEv).map sampleUS,
       s.total_events + evs.length,
       s.measured_events + (evs.filter keepEv).length⟩ := by
  induction evs generalizing s with
  | nil => simp [processBatch]
  | cons e rest ih =>
    simp only [processBatch]
    rw [ih, processEvent_fst]
    by_cases hk : keepEv e
    · simp [hk, List.filter_cons, List.append_assoc]
      omega
    · simp [hk, List.filter_cons]
      omega

theorem sampleUS_nonneg (e : InputEvent) : 0 ≤ sampleUS e := by
  unfold sampleUS
  positivity

/-- The measured-count always matches the accumulator size and never
exceeds the total-seen count. -/
def countersInv (s : LoopSt) : Prop :=
  s.measured_events = s.latencies_us.length ∧ s.measured_events ≤ s.total_events

/-- Both counters only grow and the accumulator is only appended to. -/
def grows (s s' : LoopSt) : Prop :=
  s.total_events ≤ s'.total_events ∧ s.measured_events ≤ s'.measured_events ∧
  ∃ t, s'.latencies_us = s.latencies_us ++ t

theorem grows_refl (s : LoopSt) : grows s s :=
  ⟨le_refl _, le_refl _, [], by simp⟩

theorem grows_trans {s1 s2 s3 : LoopSt} (h1 : grows s1 s2) (h2 : grows s2 s3) :
    grows s1 s3 := by
  obtain ⟨ht1, hm1, t1, hl1⟩ := h1
  obtain ⟨ht2, hm2, t2, hl2⟩ := h2
  exact ⟨le_trans ht1 ht2, le_trans hm1 hm2, t1 ++ t2, by rw [hl2, hl1, List.append_assoc]⟩

theorem processEvent_grows (quiet : Bool) (s : LoopSt) (e : InputEvent) :
    grows s (processEvent quiet s e).1 := by
  rw [processEvent_fst]
  by_cases hk : keepEv e
  · exact ⟨by simp [hk], by simp [hk], [sampleUS e], by simp [hk]⟩
  · exact ⟨by simp [hk], by simp [hk], [], by simp [hk]⟩

theorem processBatch_grows (quiet : Bool) (evs : List InputEvent) (s : LoopSt) :
    grows s (processBatch quiet s evs).1 := by
  rw [processBatch_fst]
  exact ⟨by simp, by simp, (evs.filter keepEv).map sampleUS, by simp⟩

theorem processEvent_inv (quiet : Bool) (s : LoopSt) (e : InputEvent)
    (h : countersInv s) : countersInv (processEvent quiet s e).1 := by
  obtain ⟨h1, h2⟩ := h
  rw [processEvent_fst]
  by_cases hk : keepEv e
  · exact ⟨by simp [hk, h1], by simp [hk]; omega⟩
  · exact ⟨by simp [hk, h1], by simp [hk]; omega⟩

theorem processBatch_inv (quiet : Bool) (evs : List InputEvent) (s : LoopSt)
    (h : countersInv s) : countersInv (processBatch quiet s evs).1 := by
  obtain ⟨h1, h2⟩ := h
  have hle : (evs.filter keepEv).length ≤ evs.length := List.length_filter_le _ _
  rw [processBatch_fst]
  exact ⟨by simp [h1], by simp; omega⟩

theorem processEvent_nonneg (quiet : Bool) (s : LoopSt) (e : InputEvent)
    (h : ∀ x ∈ s.latencies_us, 0 ≤ x) :
    ∀ x ∈ (processEvent quiet s e).1.latencies_us, 0 ≤ x := by
  rw [processEvent_fst]
  by_cases hk : keepEv e
  · simp only [hk, if_true]
    intro x hx
    rcases List.mem_append.1 hx with h1 | h1
    · exact h x h1
    · rw [List.mem_singleton.1 h1]
      exact sampleUS_nonneg e
  · simpa [hk] using h

theorem processBatch_nonneg (quiet : Bool) (evs : List InputEvent) (s : LoopSt)
    (h : ∀ x ∈ s.latencies_us, 0 ≤ x) :
    ∀ x ∈ (processBatch quiet s evs).1.latencies_us, 0 ≤ x := by
  rw [processBatch_fst]
  intro x hx
  rcases List.mem_append.1 hx with h1 | h1
  · exact h x h1
  · rcases List.mem_map.1 h1 with ⟨e, _, rfl⟩
    exact sampleUS_nonneg e

/-- Any per-state property preserved by each batch is preserved by the
whole poll loop. -/
theorem loopRun_preserves (P : LoopSt → Prop) (limit : ℤ) (quiet : Bool)
    (hB : ∀ (evs : List InputEvent) (s : LoopSt), P s → P (processBatch quiet s evs).1) :
    ∀ (iters : List (Bool × PollStep)) (s : LoopSt),
      P s → P (loopRun limit quiet s iters).1 := by
  intro iters
  induction iters with
  | nil => intro s h; exact h
  | cons it rest ih =>
    intro s h
    obtain ⟨stop, step⟩ := it
    simp only [loopRun]
    by_cases hg : stop = true ∨ ¬(limit = 0 ∨ (s.latencies_us.length : ℤ) < limit)
    · rw [if_pos hg]; exact h
    · rw [if_neg hg]
      cases step with
      | timeout => exact ih s h
      | pollEINTR => exact ih s h
      | pollFatal => exact h
      | noPollin => exact ih s h
      | readAgain => exact ih s h
      | readFatal => exact h
      | batch evs => exact ih _ (hB evs s h)

/-- The loop only grows the state. -/
theorem loopRun_grows (limit : ℤ) (quiet : Bool) :
    ∀ (iters : List (Bool × PollStep)) (s : LoopSt),
      grows s (loopRun limit quiet s iters).1 := by
  intro iters
  induction iters with
  | nil => intro s; exact grows_refl s
  | cons it rest ih =>
    intro s
    obtain ⟨stop, step⟩ := it
    simp only [loopRun]
    by_cases hg : stop = true ∨ ¬(limit = 0 ∨ (s.latencies_us.length : ℤ) < limit)
    · rw [if_pos hg]; exact grows_refl s
    · rw [if_neg hg]
      cases step with
      | timeout => exact ih s
      | pollEINTR => exact ih s
      | pollFatal => exact grows_refl s
      | noPollin => exact ih s
      | readAgain => exact ih s
      | readFatal => exact grows_refl s
      | batch evs => exact grows_trans (processBatch_grows quiet evs s) (ih _)

/-- The state after any prefix of the iteration list is a prefix stage of
the final state. -/
theorem loopRun_append_grows (limit : ℤ) (quiet : Bool) :
    ∀ (l1 l2 : List (Bool × PollStep)) (s : LoopSt),
      grows (loopRun limit quiet s l1).1 (loopRun limit quiet s (l1 ++ l2)).1 := by
  intro l1
  induction l1 with
  | nil => intro l2 s; exact loopRun_grows limit quiet l2 s
  | cons it rest ih =>
    intro l2 s
    obtain ⟨stop, step⟩ := it
    rw [List.cons_append]
    simp only [loopRun]
    by_cases hg : stop = true ∨ ¬(limit = 0 ∨ (s.latencies_us.length : ℤ) < limit)
    · rw [if_pos hg, if_pos hg]; exact grows_refl s
    · rw [if_neg hg, if_neg hg]
      cases step with
      | timeout => exact ih l2 s
      | pollEINTR => exact ih l2 s
      | pollFatal => exact grows_refl s
      | noPollin => exact ih l2 s
      | readAgain => exact ih l2 s
      | readFatal => exact grows_refl s
      | batch evs => exact ih l2 _

/-- C3: for a measurable record the state gains the sample
`(now_ns - device_ts)/1000` microseconds and a measured-count increment
exactly when `now_ns ≥ device_ts`; otherwise the record is dropped with no
output while total-seen still increments; and every sample in the
accumulator of any run is nonnegative. -/
theorem C3_no_negative_samples :
    (∀ (quiet : Bool) (s : LoopSt) (e : InputEvent), measure e.type = true →
      (processEvent quiet s e).1.total_events = s.total_events + 1 ∧
      (e.time_ns ≤ e.now_ns →
        (processEvent quiet s e).1.latencies_us = s.latencies_us ++ [sampleUS e] ∧
        (processEvent quiet s e).1.measured_events = s.measured_events + 1) ∧
      (¬ e.time_ns ≤ e.now_ns →
        (processEvent quiet s e).1.latencies_us = s.latencies_us ∧
        (processEvent quiet s e).1.measured_events = s.measured_events ∧
        (processEvent quiet s e).2 = [])) ∧
    (∀ (limit : ℤ) (quiet : Bool) (iters : List (Bool × PollStep)),
      ∀ x ∈ (loopRun limit quiet initSt iters).1.latencies_us, 0 ≤ x) := by
  constructor
  · intro quiet s e hm
    refine ⟨?_, ?_, ?_⟩
    · rw [processEvent_fst]
      by_cases hk : keepEv e
      · simp [hk]
      · simp [hk]
    · intro ht
      have hk : keepEv e = true := by simp [keepEv, hm, ht]
      rw [processEvent_fst, if_pos hk]
      exact ⟨rfl, rfl⟩
    · intro ht
      have hk : keepEv e = false := by simp [keepEv, ht]
      refine ⟨?_, ?_, processEvent_discard_out quiet s e hk⟩
      · rw [processEvent_fst, if_neg (by simp [hk])]
      · rw [processEvent_fst, if_neg (by simp [hk])]
  · intro limit quiet iters
    exact loopRun_preserves (fun s => ∀ x ∈ s.latencies_us, 0 ≤ x) limit quiet
      (fun evs s h => processBatch_nonneg quiet evs s h) iters initSt (by simp [initSt])

/-- Witness for C3: a key event with `now_ns ≥ time_ns` appends its
sample, and the one-batch run holds only nonnegative samples. -/
theorem C3_no_negative_samples_witness :
    measure (InputEvent.mk EV_KEY 0 0 5 7).type = true ∧
    (InputEvent.mk EV_KEY 0 0 5 7).time_ns ≤ (InputEvent.mk EV_KEY 0 0 5 7).now_ns ∧
    (processEvent true initSt (InputEvent.mk EV_KEY 0 0 5 7)).1.latencies_us =
      initSt.latencies_us ++ [sampleUS (InputEvent.mk EV_KEY 0 0 5 7)] ∧
    sampleUS (InputEvent.mk EV_KEY 0 0 5 7) ∈
      (loopRun 0 true initSt [(false, PollStep.batch [InputEvent.mk EV_KEY 0 0 5 7])]).1.latencies_us ∧
    0 ≤ sampleUS (InputEvent.mk EV_KEY 0 0 5 7) :=
  ⟨by decide, by decide,
   ((C3_no_negative_samples.1 true initSt (InputEvent.mk EV_KEY 0 0 5 7)
      (by decide)).2.1 (by decide)).1,
   by simp [loopRun, processBatch, processEvent, measure, EV_KEY, initSt],
   C3_no_negative_samples.2 0 true [(false, PollStep.batch [InputEvent.mk EV_KEY 0 0 5 7])]
     (sampleUS (InputEvent.mk EV_KEY 0 0 5 7))
     (by simp [loopRun, processBatch, processEvent, measure, EV_KEY, initSt])⟩

/-- C5: a record is classified measurable exactly when its type is
key-state, absolute-position, relative-motion or miscellaneous; any other
type — synchronization markers included — is never timed, whatever its
timestamps, yet still bumps the total-seen counter. -/
theorem C5_classification :
    (∀ t : ℕ, measure t = true ↔ (t = EV_KEY ∨ t = EV_ABS ∨ t = EV_REL ∨ t = EV_MSC)) ∧
    measure EV_SYN = false ∧
    (∀ (quiet : Bool) (s : LoopSt) (e : InputEvent), measure e.type = false →
      (processEvent quiet s e).1.latencies_us = s.latencies_us ∧
      (processEvent quiet s e).1.measured_events = s.measured_events ∧
      (processEvent quiet s e).1.total_events = s.total_events + 1) := by
  refine ⟨?_, by decide, ?_⟩
  · intro t
    simp [measure]
    tauto
  · intro quiet s e hm
    have hm' : ¬ measure e.type = true := by simp [hm]
    simp [processEvent, hm']

/-- Witness for C5: a synchronization record with an arbitrary timestamp
is counted but not measured. -/
theorem C5_classification_witness :
    measure (InputEvent.mk EV_SYN 0 0 5 1).type = false ∧
    (processEvent false ⟨[], 3, 0⟩ (InputEvent.mk EV_SYN 0 0 5 1)).1.latencies_us = [] ∧
    (processEvent false ⟨[], 3, 0⟩ (InputEvent.mk EV_SYN 0 0 5 1)).1.measured_events = 0 ∧
    (processEvent false ⟨[], 3, 0⟩ (InputEvent.mk EV_SYN 0 0 5 1)).1.total_events = 3 + 1 :=
  ⟨by decide,
   (C5_classification.2.2 false ⟨[], 3, 0⟩ (InputEvent.mk EV_SYN 0 0 5 1) (by decide)).1,
   (C5_classification.2.2 false ⟨[], 3, 0⟩ (InputEvent.mk EV_SYN 0 0 5 1) (by decide)).2.1,
   (C5_classification.2.2 false ⟨[], 3, 0⟩ (InputEvent.mk EV_SYN 0 0 5 1) (by decide)).2.2⟩

/-- C10: the measured-count always equals the accumulator size, never
exceeds total-seen, and state only grows: per record, over any loop run
from any invariant state, and from any prefix of a run to its end. -/
theorem C10_counters_invariant :
    countersInv initSt ∧
    (∀ (quiet : Bool) (s : LoopSt) (e : InputEvent), countersInv s →
      countersInv (processEvent quiet s e).1 ∧ grows s (processEvent quiet s e).1) ∧
    (∀ (limit : ℤ) (quiet : Bool) (iters : List (Bool × PollStep)) (s : LoopSt),
      countersInv s →
      countersInv (loopRun limit quiet s iters).1 ∧ grows s (loopRun limit quiet s iters).1) ∧
    (∀ (limit : ℤ) (quiet : Bool) (iters : List (Bool × PollStep)) (k : ℕ),
      countersInv (loopRun limit quiet initSt (iters.take k)).1 ∧
      grows (loopRun limit quiet initSt (iters.take k)).1 (loopRun limit quiet initSt iters).1) := by
  have hinit : countersInv initSt := ⟨rfl, le_refl 0⟩
  have hloop : ∀ (limit : ℤ) (quiet : Bool) (iters : List (Bool × PollStep)) (s : LoopSt),
      countersInv s → countersInv (loopRun limit quiet s iters).1 :=
    fun limit quiet iters s h =>
      loopRun_preserves countersInv limit quiet
        (fun evs s' h' => processBatch_inv quiet evs s' h') iters s h
  refine ⟨hinit, ?_, ?_, ?_⟩
  · intro quiet s e h
    exact ⟨processEvent_inv quiet s e h, processEvent_grows quiet s e⟩
  · intro limit quiet iters s h
    exact ⟨hloop limit quiet iters s h, loopRun_grows limit quiet iters s⟩
  · intro limit quiet iters k
    refine ⟨hloop limit quiet _ initSt hinit, ?_⟩
    have := loopRun_append_grows limit quiet (iters.take k) (iters.drop k) initSt
    rwa [List.take_append_drop] at this

/-- Witness for C10: the invariant holds and is preserved on a concrete
one-batch run. -/
theorem C10_counters_invariant_witness :
    countersInv initSt ∧
    (countersInv (processEvent true initSt (InputEvent.mk EV_KEY 0 0 5 7)).1 ∧
      grows initSt (processEvent true initSt (InputEvent.mk EV_KEY 0 0 5 7)).1) :=
  ⟨C10_counters_invariant.1,
   C10_counters_invariant.2.1 true initSt (InputEvent.mk EV_KEY 0 0 5 7)
     ⟨by decide, by decide⟩⟩

theorem percentile_const3 (c p : ℚ) (hp0 : 0 < p) (hp1 : p < 100) :
    percentile [c, c, c] p = c := by
  rw [percentile_of_between _ (by simp) hp0 hp1]
  unfold interpAt
  set idx := (p / 100) * ((([c, c, c] : List ℚ).length - 1 : ℕ) : ℚ) with hidx
  have hidx0 : 0 ≤ idx := idx_nonneg _ hp0.le
  have hidxlt : idx < 2 := by
    rw [hidx]
    have h1 : p / 100 < 1 := by
      rw [div_lt_one (by norm_num : (0:ℚ) < 100)]
      exact hp1
    have h2 : ((([c, c, c] : List ℚ).length - 1 : ℕ) : ℚ) = 2 := by norm_num
    rw [h2]
    linarith
  have hfl : ⌊idx⌋.toNat ≤ 1 := by
    have hlt : ⌊idx⌋ < 2 := Int.floor_lt.2 (by push_cast; linarith)
    have h0 : (0:ℤ) ≤ ⌊idx⌋ := Int.floor_nonneg.2 hidx0
    omega
  have hg : ∀ n : ℕ, n ≤ 2 → ([c, c, c] : List ℚ).getD n 0 = c := by
    intro n hn
    interval_cases n <;> rfl
  have hcond : ⌊idx⌋.toNat + 1 < ([c, c, c] : List ℚ).length := by
    simp only [List.length_cons, List.length_nil]
    omega
  rw [if_pos hcond, hg ⌊idx⌋.toNat (by omega), hg (⌊idx⌋.toNat + 1) (by omega)]
  ring

/-- A nonempty accumulator produces exactly the report built from its
sorted copy. -/
theorem print_stats_some_eq (l : List ℚ) (hl : l ≠ []) :
    (print_stats l).1 = some
      ⟨(l.insertionSort (· ≤ ·)).length,
       (l.insertionSort (· ≤ ·)).sum / (((l.insertionSort (· ≤ ·)).length : ℕ) : ℚ),
       percentile (l.insertionSort (· ≤ ·)) 50,
       percentile (l.insertionSort (· ≤ ·)) 95,
       percentile (l.insertionSort (· ≤ ·)) 99⟩ := by
  unfold print_stats
  rw [if_neg hl]

theorem print_stats_none_iff (l : List ℚ) : (print_stats l).1 = none ↔ l = [] := by
  by_cases h : l = []
  · simp [print_stats, h]
  · rw [print_stats_some_eq l h]
    simp [h]

theorem print_stats_count (l : List ℚ) (st : Stats)
    (h : (print_stats l).1 = some st) : st.count = l.length := by
  by_cases hl : l = []
  · rw [hl] at h
    exact absurd h (by simp [print_stats])
  · rw [print_stats_some_eq l hl] at h
    rw [← Option.some.inj h]
    exact (List.perm_insertionSort (· ≤ ·) l).length_eq

/-- C4: a processed record sequence accumulates exactly the samples of the
kept (measurable, nonnegative-delta) records; the reported average is the
arithmetic mean of exactly those samples; and `[10, 10, 10]` reports
average 10 with p50 = p95 = p99 = 10. -/
theorem C4_average_mean :
    (∀ (quiet : Bool) (evs : List InputEvent),
      (processBatch quiet initSt evs).1.latencies_us = (evs.filter keepEv).map sampleUS) ∧
    (∀ l : List ℚ, l ≠ [] → ∃ st, (print_stats l).1 = some st ∧
      st.count = l.length ∧ st.avg = l.sum / (l.length : ℚ)) ∧
    (print_stats [10, 10, 10]).1 = some ⟨3, 10, 10, 10, 10⟩ := by
  refine ⟨?_, ?_, ?_⟩
  · intro quiet evs
    rw [processBatch_fst]
    simp [initSt]
  · intro l hl
    have hperm := List.perm_insertionSort (· ≤ ·) l
    refine ⟨_, print_stats_some_eq l hl, ?_, ?_⟩
    · exact hperm.length_eq
    · show (l.insertionSort (· ≤ ·)).sum / (((l.insertionSort (· ≤ ·)).length : ℕ) : ℚ)
        = l.sum / (l.length : ℚ)
      rw [hperm.sum_eq, hperm.length_eq]
  · have hsort : ([10, 10, 10] : List ℚ).insertionSort (· ≤ ·) = [10, 10, 10] := by
      norm_num [List.insertionSort, List.orderedInsert]
    have h50 := percentile_const3 10 50 (by norm_num) (by norm_num)
    have h95 := percentile_const3 10 95 (by norm_num) (by norm_num)
    have h99 := percentile_const3 10 99 (by norm_num) (by norm_num)
    rw [print_stats_some_eq _ (by simp), hsort]
    rw [h50, h95, h99]
    norm_num

/-- C9: the stats computation sorts a copy of the accumulator: the
accumulator is left unchanged by the call, and a second invocation on it
yields the identical report. -/
theorem C9_stats_idempotent (latencies_us : List ℚ) :
    (print_stats latencies_us).2 = latencies_us ∧
    (print_stats (print_stats latencies_us).2).1 = (print_stats latencies_us).1 := by
  have h2 : (print_stats latencies_us).2 = latencies_us := by
    unfold print_stats
    by_cases h : latencies_us = []
    · rw [if_pos h]
    · rw [if_neg h]
  exact ⟨h2, by rw [h2]⟩

/-- Witness for C4 at `l = [10, 10, 10]`. -/
theorem C4_average_mean_witness :
    ([10, 10, 10] : List ℚ) ≠ [] ∧
    (∃ st, (print_stats [10, 10, 10]).1 = some st ∧
      st.count = ([10, 10, 10] : List ℚ).length ∧
      st.avg = ([10, 10, 10] : List ℚ).sum / ((([10, 10, 10] : List ℚ).length : ℕ) : ℚ)) :=
  ⟨by decide, C4_average_mean.2.1 [10, 10, 10] (by decide)⟩

theorem processEvent_out_not_final (quiet : Bool) (s : LoopSt) (e : InputEvent) :
    ∀ o ∈ (processEvent quiet s e).2, isFinalOut o = false := by
  intro o ho
  unfold processEvent at ho
  by_cases hm : measure e.type
  · by_cases ht : e.time_ns ≤ e.now_ns
    · simp only [hm, ht, if_true] at ho
      rcases List.mem_append.1 ho with h1 | h1
      · split at h1
        · simp at h1
        · rw [List.mem_singleton.1 h1]
          rfl
      · split at h1
        · split at h1
          · rw [List.mem_singleton.1 h1]
            rfl
          · simp at h1
        · simp at h1
    · simp [hm, ht] at ho
  · simp [hm] at ho

theorem processBatch_out_not_final (quiet : Bool) :
    ∀ (evs : List InputEvent) (s : LoopSt),
      ∀ o ∈ (processBatch quiet s evs).2, isFinalOut o = false := by
  intro evs
  induction evs with
  | nil =>
    intro s o ho
    simp [processBatch] at ho
  | cons e rest ih =>
    intro s o ho
    simp only [processBatch] at ho
    rcases List.mem_append.1 ho with h1 | h1
    · exact processEvent_out_not_final quiet s e o h1
    · exact ih _ o h1

theorem loopRun_out_not_final (limit : ℤ) (quiet : Bool) :
    ∀ (iters : List (Bool × PollStep)) (s : LoopSt),
      ∀ o ∈ (loopRun limit quiet s iters).2, isFinalOut o = false := by
  intro iters
  induction iters with
  | nil =>
    intro s o ho
    simp [loopRun] at ho
  | cons it rest ih =>
    intro s o ho
    obtain ⟨stop, step⟩ := it
    simp only [loopRun] at ho
    by_cases hg : stop = true ∨ ¬(limit = 0 ∨ (s.latencies_us.length : ℤ) < limit)
    · rw [if_pos hg] at ho
      simp at ho
    · rw [if_neg hg] at ho
      cases step with
      | timeout =>
        rcases List.mem_append.1 ho with h1 | h1
        · split at h1
          · simp at h1
          · rw [List.mem_singleton.1 h1]
            rfl
        · exact ih s o h1
      | pollEINTR => exact ih s o ho
      | pollFatal => simp at ho
      | noPollin => exact ih s o ho
      | readAgain => exact ih s o ho
      | readFatal => simp at ho
      | batch evs =>
        rcases List.mem_append.1 ho with h1 | h1
        · exact processBatch_out_not_final quiet evs s o h1
        · exact ih _ o h1

/-- A whole run prints exactly one final summary when any sample was
collected, and none otherwise. -/
theorem countFinal_programRun (limit : ℤ) (quiet : Bool)
    (iters : List (Bool × PollStep)) :
    (programRun limit quiet iters).2.countP isFinalOut =
      if (loopRun limit quiet initSt iters).1.latencies_us = [] then 0 else 1 := by
  unfold programRun
  rw [List.countP_append]
  have h0 : (loopRun limit quiet initSt iters).2.countP isFinalOut = 0 :=
    List.countP_eq_zero.2 fun o ho => by
      simp [loopRun_out_not_final limit quiet iters initSt o ho]
  rw [h0]
  unfold finalOutput
  by_cases h : (loopRun limit quiet initSt iters).1.latencies_us = []
  · rw [if_pos h, (print_stats_none_iff _).2 h]
    simp [isFinalOut]
  · rw [if_neg h, print_stats_some_eq _ h]
    simp [isFinalOut]

/-- Every final summary a run prints covers the whole accumulator. -/
theorem final_mem_programRun (limit : ℤ) (quiet : Bool)
    (iters : List (Bool × PollStep)) (st : Stats)
    (h : Output.final st ∈ (programRun limit quiet iters).2) :
    st.count = (loopRun limit quiet initSt iters).1.latencies_us.length := by
  unfold programRun at h
  rcases List.mem_append.1 h with h1 | h1
  · have := loopRun_out_not_final limit quiet iters initSt _ h1
    simp [isFinalOut] at this
  · unfold finalOutput at h1
    rcases hps : (print_stats ((loopRun limit quiet initSt iters).1.latencies_us)).1
      with _ | st'
    · rw [hps] at h1
      simp at h1
    · rw [hps] at h1
      simp at h1
      rw [h1]
      exact print_stats_count _ st' hps

/-- A state with samples produces the final stats block and totals. -/
theorem final_report_nonempty (s : LoopSt) (hs : s.latencies_us ≠ []) :
    ∃ st, (print_stats s.latencies_us).1 = some st ∧
      finalOutput s = [Output.final st, Output.totals s.total_events s.measured_events] := by
  refine ⟨_, print_stats_some_eq _ hs, ?_⟩
  unfold finalOutput
  rw [print_stats_some_eq _ hs]
  rfl

/-- C7: an empty sample set yields the no-data notice and no stats report
(`print_stats` returns before touching `percentile`); a nonempty one
yields the final stats block; and a full run emits exactly one final
summary precisely when a sample exists at stop. -/
theorem C7_empty_report :
    (∀ l : List ℚ, (print_stats l).1 = none ↔ l = []) ∧
    (∀ s : LoopSt, s.latencies_us = [] →
      finalOutput s = [Output.noData, Output.totals s.total_events s.measured_events]) ∧
    (∀ s : LoopSt, s.latencies_us ≠ [] → ∃ st,
      (print_stats s.latencies_us).1 = some st ∧
      finalOutput s = [Output.final st, Output.totals s.total_events s.measured_events]) ∧
    (∀ (limit : ℤ) (quiet : Bool) (iters : List (Bool × PollStep)),
      (programRun limit quiet iters).2.countP isFinalOut =
        if (loopRun limit quiet initSt iters).1.latencies_us = [] then 0 else 1) := by
  refine ⟨print_stats_none_iff, ?_, ?_, countFinal_programRun⟩
  · intro s hs
    unfold finalOutput
    rw [(print_stats_none_iff _).2 hs]
    rfl
  · intro s hs
    exact final_report_nonempty s hs

/-- Witness for C7 at an empty and a one-sample accumulator state. -/
theorem C7_empty_report_witness :
    ((LoopSt.mk [] 2 0).latencies_us = [] ∧
      finalOutput (LoopSt.mk [] 2 0) = [Output.noData, Output.totals 2 0]) ∧
    ((LoopSt.mk [5] 2 1).latencies_us ≠ [] ∧
      ∃ st, (print_stats (LoopSt.mk [5] 2 1).latencies_us).1 = some st ∧
        finalOutput (LoopSt.mk [5] 2 1) = [Output.final st, Output.totals 2 1]) :=
  ⟨⟨by decide, C7_empty_report.2.1 (LoopSt.mk [] 2 0) (by decide)⟩,
   ⟨by decide, C7_empty_report.2.2.1 (LoopSt.mk [5] 2 1) (by decide)⟩⟩

/-- C1 (amended): once the accumulator holds at least `limit ≥ 1` samples
the loop processes nothing further; a run emits exactly one final summary
whenever a sample was collected, and every final summary covers all
collected samples — at least `limit` of them when the limit was
reached, possibly more than `limit`, because a whole read batch is
processed before the loop condition is rechecked. -/
theorem C1_limit_stop :
    (∀ (limit : ℤ) (quiet : Bool) (s : LoopSt) (iters : List (Bool × PollStep)),
      1 ≤ limit → limit ≤ (s.latencies_us.length : ℤ) →
      loopRun limit quiet s iters = (s, [])) ∧
    (∀ (limit : ℤ) (quiet : Bool) (iters : List (Bool × PollStep)),
      (programRun limit quiet iters).2.countP isFinalOut =
        if (loopRun limit quiet initSt iters).1.latencies_us = [] then 0 else 1) ∧
    (∀ (limit : ℤ) (quiet : Bool) (iters : List (Bool × PollStep)) (st : Stats),
      Output.final st ∈ (programRun limit quiet iters).2 →
      st.count = (loopRun limit quiet initSt iters).1.latencies_us.length) ∧
    (∀ (limit : ℤ) (quiet : Bool) (iters : List (Bool × PollStep)),
      1 ≤ limit →
      limit ≤ ((loopRun limit quiet initSt iters).1.latencies_us.length : ℤ) →
      ∃ st, Output.final st ∈ (programRun limit quiet iters).2 ∧
        st.count = (loopRun limit quiet initSt iters).1.latencies_us.length ∧
        limit ≤ (st.count : ℤ)) := by
  refine ⟨?_, countFinal_programRun, final_mem_programRun, ?_⟩
  · intro limit quiet s iters h1 hlen
    cases iters with
    | nil => rfl
    | cons it rest =>
      obtain ⟨stop, step⟩ := it
      simp only [loopRun]
      rw [if_pos (Or.inr (by push_neg; exact ⟨by omega, by omega⟩))]
  · intro limit quiet iters h1 hlen
    have hne : (loopRun limit quiet initSt iters).1.latencies_us ≠ [] := by
      intro h
      rw [h] at hlen
      simp at hlen
      omega
    obtain ⟨st, hst, hfin⟩ := final_report_nonempty (loopRun limit quiet initSt iters).1 hne
    refine ⟨st, ?_, ?_, ?_⟩
    · unfold programRun
      refine List.mem_append.2 (Or.inr ?_)
      rw [hfin]
      exact List.mem_cons_self _ _
    · exact print_stats_count _ _ hst
    · rw [print_stats_count _ _ hst]
      exact hlen

/-- Witness for C1: with `limit = 1` and one sample already accumulated,
any further iterations are ignored, and a run that accumulated one sample
reports it in the single final summary. -/
theorem C1_limit_stop_witness :
    ((1 : ℤ) ≤ 1 ∧ (1 : ℤ) ≤ ((LoopSt.mk [5] 1 1).latencies_us.length : ℤ) ∧
      loopRun 1 true (LoopSt.mk [5] 1 1) [(false, PollStep.timeout)] =
        (LoopSt.mk [5] 1 1, [])) ∧
    ((1 : ℤ) ≤
        ((loopRun 1 true initSt
          [(false, PollStep.batch [InputEvent.mk EV_KEY 0 0 5 7])]).1.latencies_us.length : ℤ) ∧
      ∃ st, Output.final st ∈
          (programRun 1 true [(false, PollStep.batch [InputEvent.mk EV_KEY 0 0 5 7])]).2 ∧
        st.count = (loopRun 1 true initSt
          [(false, PollStep.batch [InputEvent.mk EV_KEY 0 0 5 7])]).1.latencies_us.length ∧
        (1 : ℤ) ≤ (st.count : ℤ)) :=
  ⟨⟨by decide, by decide,
    C1_limit_stop.1 1 true (LoopSt.mk [5] 1 1) [(false, PollStep.timeout)]
      (by decide) (by decide)⟩,
   ⟨by simp [loopRun, processBatch, processEvent, measure, EV_KEY, initSt],
    C1_limit_stop.2.2.2 1 true [(false, PollStep.batch [InputEvent.mk EV_KEY 0 0 5 7])]
      (by decide)
      (by simp [loopRun, processBatch, processEvent, measure, EV_KEY, initSt])⟩⟩

/-- C1 counterexample: with `--limit 1` and a single read returning two
measurable records, the whole batch is processed before the loop condition
is rechecked, so the one final summary covers 2 samples, not
`limit = 1` — refuting "exactly `limit` samples ... never more". -/
theorem C1_counterexample :
    (programRun 1 true [(false, PollStep.batch
        [InputEvent.mk EV_KEY 0 0 5 5, InputEvent.mk EV_KEY 0 0 5 5])]).2.filter isFinalOut
      = [Output.final ⟨2, 0, 0, 0, 0⟩] ∧ (2 : ℕ) ≠ 1 := by
  constructor
  · have hs : sampleUS (InputEvent.mk 1 0 0 5 5) = 0 := by
      norm_num [sampleUS]
    have hrun : (programRun 1 true [(false, PollStep.batch
        [InputEvent.mk EV_KEY 0 0 5 5, InputEvent.mk EV_KEY 0 0 5 5])]).2
          = finalOutput ⟨[0, 0], 2, 2⟩ := by
      simp [programRun, loopRun, processBatch, processEvent, measure, EV_KEY,
        initSt, hs]
    rw [hrun]
    have h50 : percentile [(0 : ℚ), 0] 50 = 0 := by
      rw [percentile_of_between _ (by simp) (by norm_num) (by norm_num)]
      norm_num [interpAt, show Int.toNat 0 = 0 from rfl, List.getD]
    have h95 : percentile [(0 : ℚ), 0] 95 = 0 := by
      rw [percentile_of_between _ (by simp) (by norm_num) (by norm_num)]
      norm_num [interpAt, show Int.toNat 0 = 0 from rfl, List.getD]
    have h99 : percentile [(0 : ℚ), 0] 99 = 0 := by
      rw [percentile_of_between _ (by simp) (by norm_num) (by norm_num)]
      norm_num [interpAt, show Int.toNat 0 = 0 from rfl, List.getD]
    have hsort : ([0, 0] : List ℚ).insertionSort (· ≤ ·) = [0, 0] := by
      norm_num [List.insertionSort, List.orderedInsert]
    unfold finalOutput
    rw [print_stats_some_eq _ (by simp), hsort, h50, h95, h99]
    norm_num [isFinalOut, List.filter]
  · decide

/-- C8 counterexample: `input_latency /dev/input/event0 --limit abc` is an
invocation with an invalid argument, yet the program neither prints a
usage message nor exits with code 1 — `std::stoi("abc")` throws
`std::invalid_argument`, which nothing catches, so the process terminates
abnormally. -/
theorem C8_counterexample :
    programExit ["/dev/input/event0", "--limit", "abc"] true [] = ExitResult.abort ∧
    ExitResult.abort ≠ ExitResult.exit 1 := by
  constructor
  · rfl
  · decide

/-- C8 (amended): a missing device path yields the usage message and exit
code 1; an unknown argument yields an error message and exit code 1; a
`--limit` value that `std::stoi` cannot parse terminates the process
abnormally through an uncaught exception instead of exiting 1; a failed
device open exits 1; and every invocation that reaches the poll loop exits
0 on every loop exit path, interrupt cancellation included. -/
theorem C8_exit_codes :
    (∀ (openOk : Bool) (iters : List (Bool × PollStep)),
      programExit [] openOk iters = ExitResult.exit 1) ∧
    (∀ (args : List String) (openOk : Bool) (iters : List (Bool × PollStep)) (a : String),
      parseArgs args = ParseResult.unknownArg a →
      programExit args openOk iters = ExitResult.exit 1) ∧
    (∀ (args : List String) (openOk : Bool) (iters : List (Bool × PollStep)) (a : String),
      parseArgs args = ParseResult.stoiThrow a →
      programExit args openOk iters = ExitResult.abort) ∧
    (∀ (args : List String) (iters : List (Bool × PollStep)) (limit : ℤ) (quiet : Bool),
      parseArgs args = ParseResult.ok limit quiet →
      programExit args false iters = ExitResult.exit 1) ∧
    (∀ (args : List String) (iters : List (Bool × PollStep)) (limit : ℤ) (quiet : Bool),
      parseArgs args = ParseResult.ok limit quiet →
      programExit args true iters = ExitResult.exit 0) := by
  refine ⟨?_, ?_, ?_, ?_, ?_⟩
  · intro openOk iters
    rfl
  · intro args openOk iters a h
    unfold programExit
    rw [h]
  · intro args openOk iters a h
    unfold programExit
    rw [h]
  · intro args iters limit quiet h
    unfold programExit
    rw [h]
    rfl
  · intro args iters limit quiet h
    unfold programExit
    rw [h]
    rfl

/-- Witness for C8: concrete invocations for the unknown-argument,
stoi-throw, open-failure and clean-completion paths. -/
theorem C8_exit_codes_witness :
    (parseArgs ["/dev/input/event0", "--bogus"] = ParseResult.unknownArg "--bogus" ∧
      programExit ["/dev/input/event0", "--bogus"] true [] = ExitResult.exit 1) ∧
    (parseArgs ["/dev/input/event0", "--limit", "abc"] = ParseResult.stoiThrow "abc" ∧
      programExit ["/dev/input/event0", "--limit", "abc"] true [] = ExitResult.abort) ∧
    (parseArgs ["/dev/input/event0", "--limit", "500"] = ParseResult.ok 500 false ∧
      programExit ["/dev/input/event0", "--limit", "500"] false [] = ExitResult.exit 1) ∧
    (parseArgs ["/dev/input/event0", "--quiet"] = ParseResult.ok 0 true ∧
      programExit ["/dev/input/event0", "--quiet"] true [(true, PollStep.timeout)]
        = ExitResult.exit 0) :=
  ⟨⟨by rfl, C8_exit_codes.2.1 ["/dev/input/event0", "--bogus"] true [] "--bogus" (by rfl)⟩,
   ⟨by rfl, C8_exit_codes.2.2.1 ["/dev/input/event0", "--limit", "abc"] true [] "abc" (by rfl)⟩,
   ⟨by rfl, C8_exit_codes.2.2.2.1 ["/dev/input/event0", "--limit", "500"] [] 500 false (by rfl)⟩,
   ⟨by rfl, C8_exit_codes.2.2.2.2 ["/dev/input/event0", "--quiet"]
      [(true, PollStep.timeout)] 0 true (by rfl)⟩⟩

end InputLatency
